import Mathlib

/-!
# Verification of the recipe-manager document store

A shallow embedding, in Lean 4, of the core of the `recipe-manager`
repository: the sandboxed path resolver, the versioned document store,
the attachment (photo) lifecycle, directory listing, the two search
ranking functions and the translation cache, together with theorems
settling the specification's claims about them.

Python strings are modelled as `List Char` (code points); the Python
functions `str.lower`, `str.count`, `str.strip`, `re.sub`, `re.findall`
and friends are translated as executable Lean functions on `List Char`.
Filesystem state is modelled explicitly (association lists of paths, a
tree of nodes), and fallible operations return `Option`/`Except`.
-/

/-! ## Generic string and list utilities -/

/-- Python `str.lower` restricted to ASCII (`Char.toLower`), applied to
the code points of a string. -/
def lowerData (s : List Char) : List Char := s.map Char.toLower

/-- Python `needle in haystack` on strings: does `pat` occur as a
contiguous substring? -/
def containsSub (pat : List Char) : List Char → Bool
  | [] => List.isPrefixOf pat []
  | c :: t => List.isPrefixOf pat (c :: t) || containsSub pat t

/-- Fuel-driven core of `countOccs`; the fuel is an upper bound on the
number of scanning steps (one step consumes at least one character). -/
def countOccsAux (pat : List Char) : Nat → List Char → Nat
  | _, [] => 0
  | 0, _ => 0
  | fuel + 1, c :: t =>
    if List.isPrefixOf pat (c :: t) then
      1 + countOccsAux pat fuel (List.drop (pat.length - 1) t)
    else countOccsAux pat fuel t

/-- Python `haystack.count(pat)`: number of non-overlapping occurrences,
scanning left to right. -/
def countOccs (pat s : List Char) : Nat :=
  if pat.isEmpty then s.length + 1 else countOccsAux pat s.length s

/-- A word character in the sense of `re` module's `\w` (ASCII part). -/
def isWordChar (c : Char) : Bool := c.isAlphanum || c == '_'

/-- Core of `findWords`: `cur` holds the reversed characters of the word
currently being scanned. -/
def findWordsAux (cur : List Char) : List Char → List (List Char)
  | [] => if cur.isEmpty then [] else [cur.reverse]
  | c :: t =>
    if isWordChar c then findWordsAux (c :: cur) t
    else if cur.isEmpty then findWordsAux [] t
    else cur.reverse :: findWordsAux [] t

/-- Python `re.findall(r"\w+", s)`: the maximal runs of word characters. -/
def findWords (s : List Char) : List (List Char) := findWordsAux [] s

/-- Python `s.endswith(suf)`. -/
def endsWithStr (s suf : String) : Bool := List.isSuffixOf suf.data s.data

/-- Code-point lexicographic comparison, Python's `<=` on strings. -/
def lexLe : List Char → List Char → Bool
  | [], _ => true
  | _ :: _, [] => false
  | a :: as, b :: bs => if a < b then true else if b < a then false else lexLe as bs

/-- First-match association-list lookup (Python `dict` read access). -/
def lookupA {β : Type} (p : String) : List (String × β) → Option β
  | [] => none
  | (q, v) :: t => if q = p then some v else lookupA p t

/-! ## A stable sort

Python's `list.sort` is stable; `reverse=True` sorts by descending key
while still keeping the original order of equal elements.  Both uses in
the source are modelled by insertion sort with a total boolean
"goes-before-or-equal" relation: `insertBy` places the new element
before the first element it may precede, which preserves encounter
order among ties. -/

def insertBy {α : Type} (le : α → α → Bool) (a : α) : List α → List α
  | [] => [a]
  | b :: l => if le a b then a :: b :: l else b :: insertBy le a l

def sortBy {α : Type} (le : α → α → Bool) : List α → List α
  | [] => []
  | a :: l => insertBy le a (sortBy le l)

theorem mem_insertBy {α : Type} (le : α → α → Bool) (a x : α) (l : List α) :
    x ∈ insertBy le a l ↔ x = a ∨ x ∈ l := by
  induction l with
  | nil => simp [insertBy]
  | cons b t ih =>
    by_cases h : le a b = true
    · simp [insertBy, h]
    · simp only [insertBy, Bool.not_eq_true] at h ⊢
      rw [h]
      simp [ih]
      tauto

theorem mem_sortBy {α : Type} (le : α → α → Bool) (x : α) (l : List α) :
    x ∈ sortBy le l ↔ x ∈ l := by
  induction l with
  | nil => simp [sortBy]
  | cons a t ih => simp [sortBy, mem_insertBy, ih]

theorem pairwise_insertBy {α : Type} (le : α → α → Bool)
    (htot : ∀ x y, le x y = false → le y x = true)
    (htrans : ∀ x y z, le x y = true → le y z = true → le x z = true)
    (a : α) (l : List α) (h : l.Pairwise (fun x y => le x y = true)) :
    (insertBy le a l).Pairwise (fun x y => le x y = true) := by
  induction l with
  | nil => simp [insertBy]
  | cons b t ih =>
    rw [List.pairwise_cons] at h
    obtain ⟨hb, ht⟩ := h
    by_cases hab : le a b = true
    · rw [insertBy, if_pos hab]
      refine List.Pairwise.cons ?_ (List.Pairwise.cons hb ht)
      intro x hx
      rcases List.mem_cons.mp hx with rfl | hx
      · exact hab
      · exact htrans a b x hab (hb x hx)
    · simp only [Bool.not_eq_true] at hab
      rw [insertBy, hab]
      simp only [Bool.false_eq_true, if_false]
      refine List.Pairwise.cons ?_ (ih ht)
      intro x hx
      rcases (mem_insertBy le a x t).mp hx with h' | hx
      · rw [h']
        exact htot a b hab
      · exact hb x hx

theorem pairwise_sortBy {α : Type} (le : α → α → Bool)
    (htot : ∀ x y, le x y = false → le y x = true)
    (htrans : ∀ x y z, le x y = true → le y z = true → le x z = true)
    (l : List α) :
    (sortBy le l).Pairwise (fun x y => le x y = true) := by
  induction l with
  | nil => simp [sortBy]
  | cons a t ih => exact pairwise_insertBy le htot htrans a (sortBy le t) ih

/-! ## PathResolver (`FileSystemManager._validate_path`)

The source validates a client-supplied path by
1. removing every occurrence of `../` (Python `re.sub(r"\.\./", "", path)`,
   a single left-to-right non-overlapping pass),
2. stripping leading and trailing `/` (Python `str.strip("/")`),
3. joining the result onto the resolved base directory and canonicalizing
   (`(self.base_dir / clean_path).resolve()`; `pathlib` drops empty and `.`
   components, `resolve` folds `..`; symlinks are not modelled),
4. requiring `str(full_path).startswith(str(self.base_dir))`.

Canonical absolute paths are modelled as lists of components; `pathToString`
is `str()` of such a path. -/

/-- Step 1: `re.sub(r"\.\./", "", path)` — one left-to-right pass removing
non-overlapping occurrences of `../`. -/
def stripDotDotSlash : List Char → List Char
  | '.' :: '.' :: '/' :: rest => stripDotDotSlash rest
  | c :: rest => c :: stripDotDotSlash rest
  | [] => []

/-- Step 2: Python `str.strip("/")`. -/
def pyStripSlashes (l : List Char) : List Char :=
  ((l.dropWhile (fun c => c == '/')).reverse.dropWhile (fun c => c == '/')).reverse

/-- Split a relative path on `/` (segments may be empty, as in
`"a//b".split("/")`). -/
def splitSlash : List Char → List (List Char)
  | [] => [[]]
  | '/' :: rest => [] :: splitSlash rest
  | c :: rest =>
    match splitSlash rest with
    | s :: ss => (c :: s) :: ss
    | [] => [[c]]

/-- Join path components with `/` separators (no leading separator). -/
def joinSlashL : List (List Char) → List Char
  | [] => []
  | [c] => c
  | c :: rest => c ++ '/' :: joinSlashL rest

/-- Steps 3: join the segments onto the canonical base and canonicalize:
empty and `.` segments are dropped (as `pathlib` does when parsing), `..`
pops one component (as `resolve()` does; at the filesystem root it is a
no-op). -/
def resolveComponents (base : List String) (comps : List (List Char)) : List String :=
  comps.foldl
    (fun acc c =>
      if c.isEmpty then acc
      else if c = ['.'] then acc
      else if c = ['.', '.'] then acc.dropLast
      else acc ++ [String.mk c])
    base

/-- `str()` of a canonical absolute path: `/` followed by the components
joined with `/`. -/
def pathToString (comps : List String) : String :=
  String.mk ('/' :: joinSlashL (comps.map String.data))

/-- Python `s.startswith(pre)`. -/
def startsWithStr (pre s : String) : Bool := List.isPrefixOf pre.data s.data

/-- `FileSystemManager._validate_path`: returns the canonical resolved path,
or `none` for the `HTTPException(400, "Invalid path")` branch. -/
def validate_path (base : List String) (path : String) : Option (List String) :=
  let clean := pyStripSlashes (stripDotDotSlash path.data)
  let full := resolveComponents base (splitSlash clean)
  if startsWithStr (pathToString base) (pathToString full) then some full else none

/-- A well-formed relative path component: nonempty, free of separators,
not `.`, and not ending in `..` (so joining cannot create a `../`
occurrence and canonicalization keeps the component verbatim). -/
def wfComp (c : String) : Prop :=
  c.data ≠ [] ∧ (∀ ch ∈ c.data, ch ≠ '/') ∧ ¬ (['.', '.'] <:+ c.data) ∧ c ≠ "."

instance (c : String) : Decidable (wfComp c) := by
  unfold wfComp
  infer_instance

theorem stripDDS_cons_ne_dot (c : Char) (t : List Char) (h : c ≠ '.') :
    stripDotDotSlash (c :: t) = c :: stripDotDotSlash t := by
  rcases t with _ | ⟨b, t2⟩
  · simp [stripDotDotSlash]
  · rcases t2 with _ | ⟨d, t3⟩
    · simp [stripDotDotSlash]
    · simp [stripDotDotSlash, h]

theorem stripDDS_cons2_ne_dot (a b : Char) (t : List Char) (h : b ≠ '.') :
    stripDotDotSlash (a :: b :: t) = a :: stripDotDotSlash (b :: t) := by
  rcases t with _ | ⟨d, t3⟩
  · simp [stripDotDotSlash]
  · simp [stripDotDotSlash, h]

theorem stripDDS_cons3_ne_slash (a b d : Char) (t : List Char) (h : d ≠ '/') :
    stripDotDotSlash (a :: b :: d :: t) = a :: stripDotDotSlash (b :: d :: t) := by
  simp [stripDotDotSlash, h]

/-- If a component list has no separator and does not end in `..`, the
`../`-removal pass walks through it and the following separator
untouched. -/
theorem stripDDS_comp_sep (c r : List Char)
    (hs : ∀ ch ∈ c, ch ≠ '/') (hdd : ¬ (['.', '.'] <:+ c)) :
    stripDotDotSlash (c ++ '/' :: r) = c ++ '/' :: stripDotDotSlash r := by
  induction c with
  | nil =>
    simpa using stripDDS_cons_ne_dot '/' r (by decide)
  | cons a t ih =>
    rcases t with _ | ⟨b, t2⟩
    · have step : stripDotDotSlash (a :: '/' :: r) = a :: stripDotDotSlash ('/' :: r) :=
        stripDDS_cons2_ne_dot a '/' r (by decide)
      simpa [step] using congrArg (fun l => a :: l) (stripDDS_cons_ne_dot '/' r (by decide))
    · rcases t2 with _ | ⟨d, t3⟩
      · -- c = [a, b]
        simp only [List.cons_append, List.nil_append]
        have hb2 : ¬ (a = '.' ∧ b = '.') := by
          intro ⟨ha, hbb⟩
          exact hdd (by simp [ha, hbb])
        by_cases hbdot : b = '.'
        · have hadot : a ≠ '.' := fun ha => hb2 ⟨ha, hbdot⟩
          subst hbdot
          rw [stripDDS_cons_ne_dot a ('.' :: '/' :: r) hadot]
          rw [stripDDS_cons2_ne_dot '.' '/' r (by decide)]
          rw [stripDDS_cons_ne_dot '/' r (by decide)]
        · rw [stripDDS_cons2_ne_dot a b ('/' :: r) hbdot]
          rw [stripDDS_cons2_ne_dot b '/' r (by decide)]
          rw [stripDDS_cons_ne_dot '/' r (by decide)]
      · -- c = a :: b :: d :: t3
        have hd : d ≠ '/' := hs d (by simp)
        have hrest : ∀ ch ∈ b :: d :: t3, ch ≠ '/' := by
          intro ch hch
          exact hs ch (List.mem_cons_of_mem a hch)
        have hdd2 : ¬ (['.', '.'] <:+ (b :: d :: t3)) := by
          intro hsuf
          exact hdd (hsuf.trans (List.suffix_cons a (b :: d :: t3)))
        have step : stripDotDotSlash (a :: b :: d :: (t3 ++ '/' :: r)) =
            a :: stripDotDotSlash (b :: d :: (t3 ++ '/' :: r)) :=
          stripDDS_cons3_ne_slash a b d (t3 ++ '/' :: r) hd
        calc stripDotDotSlash ((a :: b :: d :: t3) ++ '/' :: r)
            = a :: stripDotDotSlash ((b :: d :: t3) ++ '/' :: r) := step
          _ = a :: ((b :: d :: t3) ++ '/' :: stripDotDotSlash r) := by
              rw [ih hrest hdd2]
          _ = (a :: b :: d :: t3) ++ '/' :: stripDotDotSlash r := rfl

/-- A separator-free suffix is passed through unchanged (`../` needs a
separator to match). -/
theorem stripDDS_no_slash (c : List Char) (hs : ∀ ch ∈ c, ch ≠ '/') :
    stripDotDotSlash c = c := by
  induction c with
  | nil => rfl
  | cons a t ih =>
    have ht : ∀ ch ∈ t, ch ≠ '/' := fun ch hch => hs ch (List.mem_cons_of_mem a hch)
    have step : stripDotDotSlash (a :: t) = a :: stripDotDotSlash t := by
      rcases t with _ | ⟨b, t2⟩
      · simp [stripDotDotSlash]
      · rcases t2 with _ | ⟨d, t3⟩
        · simp [stripDotDotSlash]
        · have hd : d ≠ '/' := hs d (by simp)
          exact stripDDS_cons3_ne_slash a b d t3 hd
    rw [step, ih ht]

theorem stripDDS_join (cs : List (List Char))
    (h : ∀ c ∈ cs, (∀ ch ∈ c, ch ≠ '/') ∧ ¬ (['.', '.'] <:+ c)) :
    stripDotDotSlash (joinSlashL cs) = joinSlashL cs := by
  induction cs with
  | nil => rfl
  | cons c rest ih =>
    rcases rest with _ | ⟨c2, rest2⟩
    · exact stripDDS_no_slash c (h c (by simp)).1
    · have hc := h c (by simp)
      have hrest : ∀ x ∈ c2 :: rest2, (∀ ch ∈ x, ch ≠ '/') ∧ ¬ (['.', '.'] <:+ x) :=
        fun x hx => h x (List.mem_cons_of_mem c hx)
      show stripDotDotSlash (c ++ '/' :: joinSlashL (c2 :: rest2)) = _
      rw [stripDDS_comp_sep c _ hc.1 hc.2, ih hrest]
      rfl

theorem pyStrip_noop (l : List Char)
    (h1 : ∀ a, l.head? = some a → a ≠ '/')
    (h2 : ∀ a, l.getLast? = some a → a ≠ '/') :
    pyStripSlashes l = l := by
  unfold pyStripSlashes
  have d1 : l.dropWhile (fun c => c == '/') = l := by
    cases l with
    | nil => rfl
    | cons a t =>
      have ha : a ≠ '/' := h1 a rfl
      simp [List.dropWhile_cons, ha]
  rw [d1]
  have d2 : l.reverse.dropWhile (fun c => c == '/') = l.reverse := by
    cases hr : l.reverse with
    | nil => rfl
    | cons x rs =>
      have hx : l.getLast? = some x := by
        rw [← List.head?_reverse, hr]
        rfl
      have hxne : x ≠ '/' := h2 x hx
      simp [List.dropWhile_cons, hxne]
  rw [d2, List.reverse_reverse]

theorem splitSlash_no_slash (c : List Char) (hs : ∀ ch ∈ c, ch ≠ '/') :
    splitSlash c = [c] := by
  induction c with
  | nil => rfl
  | cons a t ih =>
    have ha : a ≠ '/' := hs a (by simp)
    have ht : ∀ ch ∈ t, ch ≠ '/' := fun ch hch => hs ch (List.mem_cons_of_mem a hch)
    simp [splitSlash, ha, ih ht]

theorem splitSlash_sep (c r : List Char) (hs : ∀ ch ∈ c, ch ≠ '/') :
    splitSlash (c ++ '/' :: r) = c :: splitSlash r := by
  induction c with
  | nil => simp [splitSlash]
  | cons a t ih =>
    have ha : a ≠ '/' := hs a (by simp)
    have ht : ∀ ch ∈ t, ch ≠ '/' := fun ch hch => hs ch (List.mem_cons_of_mem a hch)
    simp [splitSlash, ha, ih ht]

theorem splitSlash_join (cs : List (List Char)) (hne : cs ≠ [])
    (h : ∀ c ∈ cs, ∀ ch ∈ c, ch ≠ '/') :
    splitSlash (joinSlashL cs) = cs := by
  induction cs with
  | nil => exact absurd rfl hne
  | cons c rest ih =>
    rcases rest with _ | ⟨c2, rest2⟩
    · exact splitSlash_no_slash c (h c (by simp))
    · have hrest : ∀ x ∈ c2 :: rest2, ∀ ch ∈ x, ch ≠ '/' :=
        fun x hx => h x (List.mem_cons_of_mem c hx)
      show splitSlash (c ++ '/' :: joinSlashL (c2 :: rest2)) = _
      rw [splitSlash_sep c _ (h c (by simp)), ih (by simp) hrest]

theorem joinSlashL_head? (c : List Char) (cs : List (List Char)) (hc : c ≠ []) :
    (joinSlashL (c :: cs)).head? = c.head? := by
  rcases c with _ | ⟨a, t⟩
  · exact absurd rfl hc
  · rcases cs with _ | ⟨c2, cs2⟩
    · rfl
    · rfl

theorem joinSlashL_getLast? (cs : List (List Char)) (hne : cs ≠ [])
    (h : ∀ c ∈ cs, c ≠ []) :
    ∃ c ∈ cs, (joinSlashL cs).getLast? = c.getLast? := by
  induction cs with
  | nil => exact absurd rfl hne
  | cons c rest ih =>
    rcases rest with _ | ⟨c2, rest2⟩
    · exact ⟨c, by simp, rfl⟩
    · obtain ⟨c', hc'mem, hc'⟩ :=
        ih (by simp) (fun x hx => h x (List.mem_cons_of_mem c hx))
      refine ⟨c', List.mem_cons_of_mem c hc'mem, ?_⟩
      show (c ++ '/' :: joinSlashL (c2 :: rest2)).getLast? = _
      obtain ⟨a, ha⟩ : ∃ a, c'.getLast? = some a := by
        rcases hl : c'.getLast? with _ | a
        · exact absurd (List.getLast?_eq_none_iff.mp hl) (h c' (List.mem_cons_of_mem c hc'mem))
        · exact ⟨a, rfl⟩
      rw [List.getLast?_append]
      rw [show ('/' :: joinSlashL (c2 :: rest2)) = ['/'] ++ joinSlashL (c2 :: rest2) from rfl]
      rw [List.getLast?_append, hc', ha]
      rfl

theorem isPrefixOf_append_self (l m : List Char) : List.isPrefixOf l (l ++ m) = true := by
  induction l with
  | nil => simp [List.isPrefixOf]
  | cons a t ih => simp [List.isPrefixOf, ih]

theorem joinSlashL_append (as bs : List (List Char)) (ha : as ≠ []) (hb : bs ≠ []) :
    joinSlashL (as ++ bs) = joinSlashL as ++ '/' :: joinSlashL bs := by
  induction as with
  | nil => exact absurd rfl ha
  | cons c rest ih =>
    rcases rest with _ | ⟨c2, rest2⟩
    · rcases bs with _ | ⟨b, bs2⟩
      · exact absurd rfl hb
      · rfl
    · show joinSlashL (c :: (c2 :: rest2 ++ bs)) = _
      have h0 : joinSlashL (c :: (c2 :: rest2 ++ bs)) =
          c ++ '/' :: joinSlashL (c2 :: rest2 ++ bs) := by
        rcases rest2 with _ | _ <;> rfl
      rw [h0, ih (by simp)]
      show c ++ '/' :: (joinSlashL (c2 :: rest2) ++ '/' :: joinSlashL bs) =
        (c ++ '/' :: joinSlashL (c2 :: rest2)) ++ '/' :: joinSlashL bs
      simp

theorem resolveComponents_cons (base : List String) (c : List Char)
    (cs : List (List Char)) :
    resolveComponents base (c :: cs) =
      resolveComponents
        (if c.isEmpty then base
         else if c = ['.'] then base
         else if c = ['.', '.'] then base.dropLast
         else base ++ [String.mk c]) cs := rfl

theorem resolveComponents_wf (comps : List String) :
    ∀ base, (∀ c ∈ comps, wfComp c) →
    resolveComponents base (comps.map String.data) = base ++ comps := by
  induction comps with
  | nil => intro base _; simp [resolveComponents]
  | cons c rest ih =>
    intro base h
    obtain ⟨hne, _, hdd, hdot⟩ := h c (by simp)
    have h1 : c.data.isEmpty = false := by
      rcases hd : c.data with _ | _
      · exact absurd hd hne
      · rfl
    have h2 : c.data ≠ ['.'] := by
      intro hd
      apply hdot
      have : String.mk c.data = String.mk ['.'] := by rw [hd]
      simpa using this
    have h3 : c.data ≠ ['.', '.'] := by
      intro hd
      exact hdd (by rw [hd])
    rw [List.map_cons, resolveComponents_cons]
    rw [if_neg (by simp [h1]), if_neg h2, if_neg h3]
    have hmk : String.mk c.data = c := rfl
    rw [hmk, ih (base ++ [c]) (fun x hx => h x (List.mem_cons_of_mem c hx))]
    simp

theorem validate_path_eq (base : List String) (path : String) :
    validate_path base path =
      (if startsWithStr (pathToString base)
          (pathToString (resolveComponents base
            (splitSlash (pyStripSlashes (stripDotDotSlash path.data)))))
       then some (resolveComponents base
            (splitSlash (pyStripSlashes (stripDotDotSlash path.data))))
       else none) := rfl

theorem mem_of_getLast?_eq {l : List Char} {a : Char} (h : l.getLast? = some a) :
    a ∈ l := by
  induction l with
  | nil => simp at h
  | cons b t ih =>
    rcases t with _ | ⟨c, t2⟩
    · simp at h
      simp [h]
    · rw [List.getLast?_cons_cons] at h
      exact List.mem_cons_of_mem b (ih h)

/-- **C2** (amended).  The resolver does not reject inputs containing `../`
segments or absolute prefixes: it sanitizes them (removes `../`
occurrences, strips surrounding separators).  What holds is: (1) every
successful resolution returns a path whose string form is prefixed by the
root's string form, and (2) every normalized traversal-free relative path
(nonempty components without separators, `.`, or a trailing `..`) is
accepted and resolves to root ++ path. -/
theorem claim_C2_path_resolution (base : List String) :
    (∀ (path : String) (p : List String), validate_path base path = some p →
        startsWithStr (pathToString base) (pathToString p) = true)
    ∧ (∀ comps : List String, (∀ c ∈ comps, wfComp c) → comps ≠ [] →
        validate_path base (String.mk (joinSlashL (comps.map String.data)))
          = some (base ++ comps)) := by
  constructor
  · intro path p h
    rw [validate_path_eq] at h
    split at h
    case isTrue hc =>
      injection h with h2
      rw [← h2]
      exact hc
    case isFalse => exact absurd h (by simp)
  · intro comps h hne
    have hc1 : ∀ c ∈ comps.map String.data, ∀ ch ∈ c, ch ≠ '/' := by
      intro c hc
      obtain ⟨s, hs, rfl⟩ := List.mem_map.mp hc
      exact (h s hs).2.1
    have hc2 : ∀ c ∈ comps.map String.data, ¬ (['.', '.'] <:+ c) := by
      intro c hc
      obtain ⟨s, hs, rfl⟩ := List.mem_map.mp hc
      exact (h s hs).2.2.1
    have hc0 : ∀ c ∈ comps.map String.data, c ≠ [] := by
      intro c hc
      obtain ⟨s, hs, rfl⟩ := List.mem_map.mp hc
      exact (h s hs).1
    have hnem : comps.map String.data ≠ [] := by
      intro h0
      exact hne (List.map_eq_nil_iff.mp h0)
    have hdata : (String.mk (joinSlashL (comps.map String.data))).data
        = joinSlashL (comps.map String.data) := rfl
    rw [validate_path_eq, hdata]
    rw [stripDDS_join _ (fun c hc => ⟨hc1 c hc, hc2 c hc⟩)]
    rw [pyStrip_noop _ ?h1 ?h2]
    case h1 =>
      intro a ha
      rcases hcs : comps.map String.data with _ | ⟨c0, rest⟩
      · exact absurd hcs hnem
      · rw [hcs] at ha
        rw [joinSlashL_head? c0 rest (hc0 c0 (by rw [hcs]; simp))] at ha
        rcases hc0d : c0 with _ | ⟨x, t⟩
        · exact absurd hc0d (hc0 c0 (by rw [hcs]; simp))
        · rw [hc0d] at ha
          simp only [List.head?_cons, Option.some.injEq] at ha
          have hx : a ∈ c0 := by
            rw [hc0d, ← ha]
            simp
          exact hc1 c0 (by rw [hcs]; simp) a hx
    case h2 =>
      intro a ha
      obtain ⟨c, hcmem, hcl⟩ := joinSlashL_getLast? (comps.map String.data) hnem hc0
      rw [hcl] at ha
      exact hc1 c hcmem a (mem_of_getLast?_eq ha)
    rw [splitSlash_join _ hnem hc1]
    rw [resolveComponents_wf comps base h]
    have hsw : startsWithStr (pathToString base) (pathToString (base ++ comps)) = true := by
      unfold startsWithStr pathToString
      rcases hb : base with _ | ⟨b0, brest⟩
      · show List.isPrefixOf ('/' :: joinSlashL []) _ = true
        show List.isPrefixOf ['/'] ('/' :: joinSlashL (comps.map String.data)) = true
        simp [List.isPrefixOf]
      · show List.isPrefixOf ('/' :: joinSlashL ((b0 :: brest).map String.data))
          ('/' :: joinSlashL (((b0 :: brest) ++ comps).map String.data)) = true
        rw [List.map_append]
        rw [joinSlashL_append _ _ (by simp) (by simpa using hnem)]
        show List.isPrefixOf ('/' :: joinSlashL ((b0 :: brest).map String.data))
          (('/' :: joinSlashL ((b0 :: brest).map String.data)) ++
            ('/' :: joinSlashL (comps.map String.data))) = true
        exact isPrefixOf_append_self _ _
    rw [hsw]
    simp

/-- **C2** counterexample to the claim as stated: the raw input `"../a"`
contains a `../` segment, yet `_validate_path` does not fail — the
segment is silently removed and resolution succeeds. -/
theorem claim_C2_counterexample :
    containsSub ['.', '.', '/'] ("../a".data) = true ∧
    validate_path ["srv", "recipes"] "../a" = some ["srv", "recipes", "a"] := by
  constructor
  · decide
  · decide

/-- **C2** witness: the amended theorem applied at a concrete root and at
concrete inputs. -/
theorem claim_C2_witness :
    startsWithStr (pathToString ["srv", "recipes"]) (pathToString ["srv", "recipes", "x.md"]) = true ∧
    validate_path ["srv", "recipes"] (String.mk (joinSlashL ((["a", "b.md"] : List String).map String.data)))
      = some ["srv", "recipes", "a", "b.md"] :=
  ⟨(claim_C2_path_resolution ["srv", "recipes"]).1 "x.md" ["srv", "recipes", "x.md"] (by decide),
   (claim_C2_path_resolution ["srv", "recipes"]).2 ["a", "b.md"] (by decide) (by decide)⟩

/-- **C3**: the source's containment check is
`str(full_path).startswith(str(self.base_dir))` — *without* a trailing
separator.  Contrary to the claim, a path that resolves into a sibling
directory whose name extends the root's name passes validation: with
root `/srv/recipes`, the raw input `"....//recipes2"` is sanitized to
`"../recipes2"`, resolves to `/srv/recipes2` (outside the root, as the
component-list comparison shows), and is *accepted*. -/
theorem claim_C3_sibling_escape :
    validate_path ["srv", "recipes"] "....//recipes2" = some ["srv", "recipes2"] ∧
    List.isPrefixOf (["srv", "recipes"] : List String) ["srv", "recipes2"] = false ∧
    startsWithStr (pathToString ["srv", "recipes"]) (pathToString ["srv", "recipes2"]) = true := by
  refine ⟨by decide, by decide, by decide⟩

/-! ## VersionedStore (versioned `write_file` / `read_file_with_version`)

`api/routes.py` calls `fs_manager.write_file(path, content, version)` and
`fs_manager.read_file_with_version(path)`, and `tests/test_version_conflict.py`
tests them, but the checked-in `api/filesystem.py` only contains the
unversioned `write_file(path, content)`; the versioned store itself is not
part of the available sources.  It is therefore modelled from the
specification (spec §4.2 VersionedStore). -/

/-- A stored document: content plus its current version number. -/
structure Doc where
  content : String
  version : Nat
deriving DecidableEq

/-- The typed write failure of spec §4.2/ §7: `VersionConflict` carries
both the caller's stale version and the current version. -/
inductive WriteError where
  | versionConflict (expected current : Nat)
deriving DecidableEq

/-- A document store: an association of paths to documents (the directory
tree flattened; paths are assumed already validated). -/
def DocStore : Type := List (String × Doc)

/-- Overwrite-or-insert for the store. -/
def insertDoc (s : List (String × Doc)) (p : String) (d : Doc) : List (String × Doc) :=
  (p, d) :: s.filter (fun q => q.1 ≠ p)

/-- Modelled from the spec: `write(path, bytes, expectedVersion?) → newVersion`
(spec §4.2), the versioned `FileSystemManager.write_file` that is absent
from the available sources.  If the target does not exist, creation
succeeds regardless of `expectedVersion` and assigns version 1.  If it
exists and `expectedVersion` is omitted, it overwrites unconditionally
and increments.  If it exists and `expectedVersion` is supplied, it
succeeds and increments iff `expectedVersion` equals the current stored
version, otherwise it fails with `VersionConflict` carrying both
versions. -/
def writeDoc (s : List (String × Doc)) (p : String) (c : String)
    (expected : Option Nat) : Except WriteError (List (String × Doc) × Nat) :=
  match lookupA p s with
  | none => .ok (insertDoc s p ⟨c, 1⟩, 1)
  | some d =>
    match expected with
    | none => .ok (insertDoc s p ⟨c, d.version + 1⟩, d.version + 1)
    | some e =>
      if e = d.version then .ok (insertDoc s p ⟨c, d.version + 1⟩, d.version + 1)
      else .error (.versionConflict e d.version)

/-- Modelled from the spec: `read(path) → (bytes, version, …)`
(spec §4.2), the `read_file_with_version` that is absent from the
available sources; modification time is not modelled. -/
def read_file_with_version (s : List (String × Doc)) (p : String) :
    Option (String × Nat) :=
  (lookupA p s).map (fun d => (d.content, d.version))

/-- The store state after a write: a failed write leaves the store
unchanged. -/
def docStoreAfterWrite (s : List (String × Doc)) (p : String) (c : String)
    (expected : Option Nat) : List (String × Doc) :=
  match writeDoc s p c expected with
  | .ok (s', _) => s'
  | .error _ => s

theorem lookupA_insertDoc_self (s : List (String × Doc)) (p : String) (d : Doc) :
    lookupA p (insertDoc s p d) = some d := by
  simp [insertDoc, lookupA]

/-- **C1**: for an existing document, a write supplying a stale
`expectedVersion` fails with `VersionConflict` carrying the stale and the
current version and leaves the store unchanged; a write supplying the
current version succeeds, stores the new content and increments the
version by exactly 1. -/
theorem claim_C1_optimistic_concurrency
    (s : List (String × Doc)) (p : String) (d : Doc) (c : String) (e : Nat)
    (h : lookupA p s = some d) :
    (e ≠ d.version →
      writeDoc s p c (some e) = .error (.versionConflict e d.version) ∧
      docStoreAfterWrite s p c (some e) = s) ∧
    (writeDoc s p c (some d.version)
        = .ok (insertDoc s p ⟨c, d.version + 1⟩, d.version + 1) ∧
      read_file_with_version (docStoreAfterWrite s p c (some d.version)) p
        = some (c, d.version + 1)) := by
  constructor
  · intro hne
    constructor
    · simp [writeDoc, h, hne]
    · simp [docStoreAfterWrite, writeDoc, h, hne]
  · constructor
    · simp [writeDoc, h]
    · simp [docStoreAfterWrite, writeDoc, h, read_file_with_version,
        lookupA_insertDoc_self]

/-- **C1** witness: a store holding `a.md` at version 2; a write with
stale expected version 1 conflicts, a write with version 2 succeeds. -/
theorem claim_C1_witness :
    lookupA "a.md" [("a.md", (⟨"hello", 2⟩ : Doc))] = some ⟨"hello", 2⟩ ∧
    (1 ≠ 2 →
      writeDoc [("a.md", (⟨"hello", 2⟩ : Doc))] "a.md" "new" (some 1)
        = .error (.versionConflict 1 2) ∧
      docStoreAfterWrite [("a.md", (⟨"hello", 2⟩ : Doc))] "a.md" "new" (some 1)
        = [("a.md", (⟨"hello", 2⟩ : Doc))]) :=
  ⟨by decide,
   (claim_C1_optimistic_concurrency [("a.md", ⟨"hello", 2⟩)] "a.md" ⟨"hello", 2⟩
      "new" 1 (by decide)).1⟩

/-- **C4**: writing content to a path at which no document exists succeeds
with version 1 (regardless of the supplied expected version), and reading
the path back returns exactly the written content at version 1. -/
theorem claim_C4_roundtrip (s : List (String × Doc)) (p : String) (c : String)
    (ev : Option Nat) (h : lookupA p s = none) :
    writeDoc s p c ev = .ok (insertDoc s p ⟨c, 1⟩, 1) ∧
    read_file_with_version (docStoreAfterWrite s p c ev) p = some (c, 1) := by
  constructor
  · simp [writeDoc, h]
  · simp [docStoreAfterWrite, writeDoc, h, read_file_with_version,
      lookupA_insertDoc_self]

/-- **C4** witness: creating `new.md` in a store that does not contain it
and reading it back. -/
theorem claim_C4_witness :
    writeDoc [("other.md", (⟨"x", 3⟩ : Doc))] "new.md" "C" (some 7)
      = .ok (insertDoc [("other.md", (⟨"x", 3⟩ : Doc))] "new.md" ⟨"C", 1⟩, 1) ∧
    read_file_with_version
      (docStoreAfterWrite [("other.md", (⟨"x", 3⟩ : Doc))] "new.md" "C" (some 7)) "new.md"
      = some ("C", 1) :=
  claim_C4_roundtrip [("other.md", ⟨"x", 3⟩)] "new.md" "C" (some 7) (by decide)

/-! ## SearchEngine (`routes._search_file_contents`, `routes._search_filenames`)

The corpus (recursive file listing plus each file's content) is passed in
explicitly; a search result is modelled by the claim-relevant projection
`(path, score)` of the result dictionaries. -/

/-- One corpus entry: a file's name, its root-relative path, and its
content (the source reads the content through `read_file`). -/
structure FileInfo where
  name : String
  path : String
  content : String
deriving DecidableEq

/-- Python `str.strip()` (whitespace, ASCII range). -/
def pyStripWs (l : List Char) : List Char :=
  ((l.dropWhile Char.isWhitespace).reverse.dropWhile Char.isWhitespace).reverse

/-- Split on newline characters, Python `content.split("\n")`. -/
def splitNl : List Char → List (List Char)
  | [] => [[]]
  | '\n' :: rest => [] :: splitNl rest
  | c :: rest =>
    match splitNl rest with
    | s :: ss => (c :: s) :: ss
    | [] => [[c]]

/-- The loop of `routes._extract_title_from_content`: the first stripped
line starting with `"# "` yields the stripped remainder. -/
def findTitle : List (List Char) → Option (List Char)
  | [] => none
  | l :: rest =>
    let t := pyStripWs l
    if List.isPrefixOf ['#', ' '] t then some (pyStripWs (t.drop 2)) else findTitle rest

/-- `routes._extract_title_from_content`. -/
def extractTitleL (content : List Char) : Option (List Char) :=
  findTitle (splitNl content)

/-- Descending comparison on the score component; `sortBy scoreLe` is
Python's stable `results.sort(key=lambda x: x["score"], reverse=True)`. -/
def scoreLe (a b : String × Nat) : Bool := decide (b.2 ≤ a.2)

/-- The score accumulation of `routes._search_file_contents` for one file,
in source order: +10 for an exact lowercased phrase occurrence, +2×count
for each query word of length ≥ 2 occurring in the content, +15 if the
lowercased query occurs in the extracted title, +8 if it occurs in the
filename.  `ql` is the lowercased query, `qws` its `\w+` tokens. -/
def codeContentScore (ql : List Char) (qws : List (List Char))
    (name content : List Char) : Nat :=
  let cl := lowerData content
  let s1 := if containsSub ql cl = true then 10 else 0
  let s2 := qws.foldl
    (fun acc w =>
      if 2 ≤ w.length then
        if 0 < countOccs w cl then acc + countOccs w cl * 2 else acc
      else acc) s1
  let s3 := s2 +
    (match extractTitleL content with
     | some t => if containsSub ql (lowerData t) = true then 15 else 0
     | none => 0)
  s3 + (if containsSub ql (lowerData name) = true then 8 else 0)

/-- `routes._search_file_contents` (projected to `(path, score)`): only
`.md` files are scored, only positive scores are kept, results are sorted
by score descending with Python's stable sort, and truncated to `limit`. -/
def searchFileContents (query : String) (lim : Nat) (files : List FileInfo) :
    List (String × Nat) :=
  let ql := lowerData query.data
  let qws := findWords ql
  let results := files.filterMap (fun f =>
    if endsWithStr f.name ".md" = true then
      if 0 < codeContentScore ql qws f.name.data f.content.data then
        some (f.path, codeContentScore ql qws f.name.data f.content.data)
      else none
    else none)
  (sortBy scoreLe results).take lim

/-- The content-search scoring formula exactly as the claim words it:
the title and filename bonuses fire when *a query token* occurs there. -/
def claimContentScore (query : String) (f : FileInfo) : Nat :=
  let ql := lowerData query.data
  let qws := findWords ql
  let cl := lowerData f.content.data
  (if containsSub ql cl = true then 10 else 0)
  + 2 * ((qws.filter (fun w => decide (2 ≤ w.length))).map (fun w => countOccs w cl)).sum
  + (match extractTitleL f.content.data with
     | some t => if qws.any (fun w => containsSub w (lowerData t)) = true then 15 else 0
     | none => 0)
  + (if qws.any (fun w => containsSub w (lowerData f.name.data)) = true then 8 else 0)

/-- The amended content-search scoring formula: as the claim, except that
the 15- and 8-point bonuses fire when the *whole lowercased query*
occurs in the extracted title resp. the filename. -/
def amendedContentScore (query : String) (f : FileInfo) : Nat :=
  let ql := lowerData query.data
  let qws := findWords ql
  let cl := lowerData f.content.data
  (if containsSub ql cl = true then 10 else 0)
  + 2 * ((qws.filter (fun w => decide (2 ≤ w.length))).map (fun w => countOccs w cl)).sum
  + (match extractTitleL f.content.data with
     | some t => if containsSub ql (lowerData t) = true then 15 else 0
     | none => 0)
  + (if containsSub ql (lowerData f.name.data) = true then 8 else 0)

/-- The unsorted candidate list of the content search under the amended
scoring formula. -/
def contentCandidates (query : String) (files : List FileInfo) : List (String × Nat) :=
  files.filterMap (fun f =>
    if endsWithStr f.name ".md" = true then
      if 0 < amendedContentScore query f then
        some (f.path, amendedContentScore query f)
      else none
    else none)

theorem foldl_add_of_body {α : Type} (f : Nat → α → Nat) (g : α → Nat)
    (h : ∀ acc w, f acc w = acc + g w) (l : List α) :
    ∀ init : Nat, l.foldl f init = init + (l.map g).sum := by
  induction l with
  | nil => intro init; simp
  | cons w t ih =>
    intro init
    rw [List.foldl_cons, h, ih, List.map_cons, List.sum_cons, Nat.add_assoc]

theorem sum_map_gate_double (c : List Char → Nat) (l : List (List Char)) :
    (l.map (fun w => if 2 ≤ w.length then (if 0 < c w then c w * 2 else 0) else 0)).sum
      = 2 * ((l.filter (fun w => decide (2 ≤ w.length))).map c).sum := by
  induction l with
  | nil => simp
  | cons w t ih =>
    by_cases h : 2 ≤ w.length
    · by_cases h0 : 0 < c w
      · simp [h, h0, ih]
        omega
      · have hc : c w = 0 := by omega
        simp [h, h0, ih, hc]
    · simp [h, ih]

theorem codeContentScore_eq (query : String) (f : FileInfo) :
    codeContentScore (lowerData query.data) (findWords (lowerData query.data))
      f.name.data f.content.data = amendedContentScore query f := by
  unfold codeContentScore amendedContentScore
  dsimp only
  rw [foldl_add_of_body _
    (fun w => if 2 ≤ w.length then
        (if 0 < countOccs w (lowerData f.content.data) then
          countOccs w (lowerData f.content.data) * 2 else 0)
      else 0)
    (by
      intro acc w
      by_cases h : 2 ≤ w.length
      · by_cases h0 : 0 < countOccs w (lowerData f.content.data)
        · simp [h, h0]
        · have hc : countOccs w (lowerData f.content.data) = 0 := by omega
          simp [h, h0, hc]
      · simp [h])]
  rw [sum_map_gate_double]

theorem contentCandidates_eq (query : String) (files : List FileInfo) :
    files.filterMap (fun f =>
      if endsWithStr f.name ".md" = true then
        if 0 < codeContentScore (lowerData query.data) (findWords (lowerData query.data))
            f.name.data f.content.data then
          some (f.path, codeContentScore (lowerData query.data)
            (findWords (lowerData query.data)) f.name.data f.content.data)
        else none
      else none) = contentCandidates query files := by
  unfold contentCandidates
  induction files with
  | nil => rfl
  | cons f t ih =>
    rw [List.filterMap_cons, List.filterMap_cons, codeContentScore_eq, ih]

theorem filter_insertBy_score (a : String × Nat) (l : List (String × Nat)) (k : Nat) :
    (insertBy scoreLe a l).filter (fun r => r.2 == k)
      = ((a :: l).filter (fun r => r.2 == k)) := by
  induction l with
  | nil => rfl
  | cons b t ih =>
    by_cases hab : scoreLe a b = true
    · rw [insertBy, if_pos hab]
    · have hlt : a.2 < b.2 := by
        simp [scoreLe] at hab
        omega
      rw [insertBy, if_neg (by simp [hab])]
      by_cases hbk : b.2 = k
      · have hak : a.2 ≠ k := by omega
        simp only [List.filter_cons]
        simp [hbk, hak, ih]
      · by_cases hak : a.2 = k
        · simp only [List.filter_cons]
          simp [hbk, hak, ih]
        · simp only [List.filter_cons]
          simp [hbk, hak, ih]

theorem filter_sortBy_score (l : List (String × Nat)) (k : Nat) :
    (sortBy scoreLe l).filter (fun r => r.2 == k) = l.filter (fun r => r.2 == k) := by
  induction l with
  | nil => rfl
  | cons a t ih =>
    rw [sortBy, filter_insertBy_score]
    by_cases hak : a.2 = k
    · simp only [List.filter_cons]
      simp [hak, ih]
    · simp only [List.filter_cons]
      simp [hak, ih]

theorem scoreLe_total : ∀ x y : String × Nat, scoreLe x y = false → scoreLe y x = true := by
  intro x y h
  simp [scoreLe] at h ⊢
  omega

theorem scoreLe_trans : ∀ x y z : String × Nat,
    scoreLe x y = true → scoreLe y z = true → scoreLe x z = true := by
  intro x y z h1 h2
  simp [scoreLe] at h1 h2 ⊢
  omega

theorem mem_contentCandidates_pos (query : String) (files : List FileInfo)
    (r : String × Nat) (h : r ∈ contentCandidates query files) : 0 < r.2 := by
  unfold contentCandidates at h
  obtain ⟨f, _, hf⟩ := List.mem_filterMap.mp h
  split at hf
  · split at hf
    · injection hf with hf'
      rw [← hf']
      simpa using by assumption
    · exact absurd hf (by simp)
  · exact absurd hf (by simp)

/-- **C5** (amended).  The content search equals: score every `.md` file
with the amended formula (10×phrase + 2×Σ word counts (length ≥ 2) +
15×(whole lowercased query in title) + 8×(whole lowercased query in
filename)), keep only positive scores, sort by score descending with a
stable sort, truncate to the limit.  The output is sorted descending,
every returned score is positive, and ties keep encounter order (the
sort preserves, for every score value, the sublist of entries having
that score). -/
theorem claim_C5_content_search (query : String) (lim : Nat) (files : List FileInfo) :
    searchFileContents query lim files
        = (sortBy scoreLe (contentCandidates query files)).take lim
    ∧ (searchFileContents query lim files).Pairwise (fun a b => b.2 ≤ a.2)
    ∧ (∀ r ∈ searchFileContents query lim files, 0 < r.2)
    ∧ (∀ k, (sortBy scoreLe (contentCandidates query files)).filter (fun r => r.2 == k)
        = (contentCandidates query files).filter (fun r => r.2 == k)) := by
  have heq : searchFileContents query lim files
      = (sortBy scoreLe (contentCandidates query files)).take lim := by
    unfold searchFileContents
    dsimp only
    rw [contentCandidates_eq]
  refine ⟨heq, ?_, ?_, fun k => filter_sortBy_score _ k⟩
  · rw [heq]
    have hp := pairwise_sortBy scoreLe scoreLe_total scoreLe_trans
      (contentCandidates query files)
    have hp2 := hp.sublist (List.take_sublist lim _)
    exact hp2.imp (fun hxy => by simpa [scoreLe] using hxy)
  · intro r hr
    rw [heq] at hr
    have hr2 : r ∈ sortBy scoreLe (contentCandidates query files) :=
      List.take_subset lim _ hr
    exact mem_contentCandidates_pos query files r ((mem_sortBy _ _ _).mp hr2)

/-- **C5** counterexample to the claim as stated: for the query
`"aa bb"` over the single file `x.md` with content `"# aa"`, the claim's
formula awards the 15-point title bonus (the token `aa` occurs in the
title `aa`), predicting score 17, but the code requires the whole phrase
`"aa bb"` to occur in the title and returns score 2. -/
theorem claim_C5_counterexample :
    searchFileContents "aa bb" 10 [⟨"x.md", "x.md", "# aa"⟩] = [("x.md", 2)] ∧
    claimContentScore "aa bb" ⟨"x.md", "x.md", "# aa"⟩ = 17 := by
  constructor
  · decide
  · decide

/-- **C5** witness: the theorem applied to a concrete query and corpus;
the returned entry has a positive score. -/
theorem claim_C5_witness :
    ("y.md", 12) ∈ searchFileContents "aa" 10 [⟨"y.md", "y.md", "aa"⟩] ∧ (0 : Nat) < 12 :=
  ⟨by decide,
   (claim_C5_content_search "aa" 10 [⟨"y.md", "y.md", "aa"⟩]).2.2.1 ("y.md", 12) (by decide)⟩

/-- The filename relevance score of `routes._search_filenames`: 100 for
an exact (lowercased) match, 50 for a prefix match, 25 for a substring
match, otherwise a fuzzy score of 2×(number of query characters, counted
with multiplicity, occurring in the filename), gated by that count being
at least 70% of the query length.  The source compares against the IEEE
double `len(query_lower) * 0.7`; the gate is modelled by the exact
rational threshold `7/10`, i.e. `7·len ≤ 10·matched`. -/
def codeFilenameScore (ql nl : List Char) : Nat :=
  if ql = nl then 100
  else if List.isPrefixOf ql nl then 50
  else if containsSub ql nl then 25
  else
    if 7 * ql.length ≤ 10 * (ql.filter (fun c => nl.contains c)).length then
      (ql.filter (fun c => nl.contains c)).length * 2
    else 0

/-- `routes._search_filenames` (projected to `(path, score)`): every
corpus file is scored against its lowercased name, only positive scores
are kept, sorted descending (stable), truncated to `limit`. -/
def searchFilenames (query : String) (lim : Nat) (files : List FileInfo) :
    List (String × Nat) :=
  let ql := lowerData query.data
  let results := files.filterMap (fun f =>
    if 0 < codeFilenameScore ql (lowerData f.name.data) then
      some (f.path, codeFilenameScore ql (lowerData f.name.data))
    else none)
  (sortBy scoreLe results).take lim

/-- The filename scoring formula exactly as the claim words it, with the
fuzzy count taken over *distinct* query characters present in the
filename. -/
def claimFilenameScore (query name : String) : Nat :=
  let ql := lowerData query.data
  let nl := lowerData name.data
  if ql = nl then 100
  else if List.isPrefixOf ql nl then 50
  else if containsSub ql nl then 25
  else
    if 7 * ql.length ≤ 10 * (ql.dedup.filter (fun c => nl.contains c)).length then
      (ql.dedup.filter (fun c => nl.contains c)).length * 2
    else 0

/-- The amended filename scoring formula: as the claim, except the fuzzy
count is over query characters *with multiplicity*. -/
def amendedFilenameScore (query name : String) : Nat :=
  codeFilenameScore (lowerData query.data) (lowerData name.data)

/-- The unsorted candidate list of the filename search. -/
def filenameCandidates (query : String) (files : List FileInfo) : List (String × Nat) :=
  files.filterMap (fun f =>
    if 0 < amendedFilenameScore query f.name then
      some (f.path, amendedFilenameScore query f.name)
    else none)

theorem mem_filenameCandidates_pos (query : String) (files : List FileInfo)
    (r : String × Nat) (h : r ∈ filenameCandidates query files) : 0 < r.2 := by
  unfold filenameCandidates at h
  obtain ⟨f, _, hf⟩ := List.mem_filterMap.mp h
  split at hf
  · injection hf with hf'
    rw [← hf']
    simpa using by assumption
  · exact absurd hf (by simp)

/-- **C6** (amended).  The filename search equals: score every corpus
file with 100 (exact case-insensitive match) / 50 (starts with) / 25
(contains) / fuzzy 2×(count of query characters, with multiplicity,
present in the filename) gated at 70% of the query length; keep only
positive scores; sort descending; truncate to the limit.  The output is
sorted descending and every returned score is positive. -/
theorem claim_C6_filename_search (query : String) (lim : Nat) (files : List FileInfo) :
    searchFilenames query lim files
        = (sortBy scoreLe (filenameCandidates query files)).take lim
    ∧ (searchFilenames query lim files).Pairwise (fun a b => b.2 ≤ a.2)
    ∧ (∀ r ∈ searchFilenames query lim files, 0 < r.2) := by
  have heq : searchFilenames query lim files
      = (sortBy scoreLe (filenameCandidates query files)).take lim := rfl
  refine ⟨heq, ?_, ?_⟩
  · rw [heq]
    have hp := pairwise_sortBy scoreLe scoreLe_total scoreLe_trans
      (filenameCandidates query files)
    have hp2 := hp.sublist (List.take_sublist lim _)
    exact hp2.imp (fun hxy => by simpa [scoreLe] using hxy)
  · intro r hr
    rw [heq] at hr
    have hr2 : r ∈ sortBy scoreLe (filenameCandidates query files) :=
      List.take_subset lim _ hr
    exact mem_filenameCandidates_pos query files r ((mem_sortBy _ _ _).mp hr2)

/-- **C6** counterexample to the claim as stated: for query `"aaa"` and
filename `"za.txt"`, the code counts each of the three occurrences of
`a` in the query (3 ≥ 70% of 3) and returns score 6, whereas the claim's
distinct-character count is 1 (< 70% of 3), predicting exclusion. -/
theorem claim_C6_counterexample :
    searchFilenames "aaa" 10 [⟨"za.txt", "za.txt", ""⟩] = [("za.txt", 6)] ∧
    claimFilenameScore "aaa" "za.txt" = 0 := by
  constructor
  · decide
  · decide

/-- **C6** witness: the theorem applied to a concrete query and corpus;
the returned entry has a positive score. -/
theorem claim_C6_witness :
    ("chocolate-cookies.md", 50) ∈
      searchFilenames "chocolate" 10 [⟨"chocolate-cookies.md", "chocolate-cookies.md", ""⟩]
    ∧ (0 : Nat) < 50 :=
  ⟨by decide,
   (claim_C6_filename_search "chocolate" 10
      [⟨"chocolate-cookies.md", "chocolate-cookies.md", ""⟩]).2.2
      ("chocolate-cookies.md", 50) (by decide)⟩

/-! ## AttachmentLinker (`delete_file` / `delete_photo` / `photo_exists`)

Filesystem state for the deletion lifecycle: the sets of existing
regular-file paths and directory paths (as validated component lists). -/

/-- The root part of `os.path.splitext(name)`: the extension starts at
the last dot, provided some non-dot character precedes it (leading dots
of a basename never start an extension). -/
def splitExtRoot (name : List Char) : List Char :=
  let pre := name.reverse.takeWhile (fun c => c != '.')
  if pre.length = name.length then name
  else
    let root := name.take (name.length - pre.length - 1)
    if root.all (fun c => c == '.') then name else root

/-- `_get_photo_path_for_recipe` applied to an already-validated path:
replace the extension of the final component by `.jpeg` in the same
directory. -/
def photoPathFor (full : List String) : List String :=
  match full.reverse with
  | [] => []
  | last :: restRev =>
    restRev.reverse ++ [String.mk (splitExtRoot last.data ++ ".jpeg".data)]

/-- Filesystem state: the validated paths of existing regular files and
existing directories. -/
structure FS where
  files : List (List String)
  dirs : List (List String)
deriving DecidableEq

/-- The typed failures surfaced as `HTTPException`s by the filesystem
manager. -/
inductive ApiError where
  | invalidPath
  | notFound
  | notAFile
deriving DecidableEq

/-- `FileSystemManager.delete_photo`: re-validates the recipe path,
derives the photo path, and unlinks it if it exists as a regular file;
otherwise fails with 404 (`Photo not found`). -/
def delete_photo_m (base : List String) (fs : FS) (recipePath : String) :
    Except ApiError FS :=
  match validate_path base recipePath with
  | none => .error .invalidPath
  | some full =>
    if photoPathFor full ∈ fs.files then
      .ok ⟨fs.files.filter (fun q => decide (q ≠ photoPathFor full)), fs.dirs⟩
    else .error .notFound

/-- `FileSystemManager.photo_exists`: any failure (including path
validation) is swallowed and reported as `False`. -/
def photo_exists_m (base : List String) (fs : FS) (recipePath : String) : Bool :=
  match validate_path base recipePath with
  | none => false
  | some full => decide (photoPathFor full ∈ fs.files)

/-- `FileSystemManager.delete_file`: 404 if the path does not exist, 400
if it names a directory; for a `.md` file, first best-effort-deletes the
associated photo — an `HTTPException` (photo absent) is swallowed by
`except HTTPException: pass` and any other failure (modelled by the
`injectPhotoFailure` flag, which makes the photo deletion fail without
effect) is logged and swallowed — then unlinks the file. -/
def delete_file_m (base : List String) (fs : FS) (path : String)
    (injectPhotoFailure : Bool) : Except ApiError FS :=
  match validate_path base path with
  | none => .error .invalidPath
  | some full =>
    if full ∈ fs.files ∨ full ∈ fs.dirs then
      if full ∈ fs.files then
        let fs1 :=
          if endsWithStr path ".md" = true then
            if injectPhotoFailure then fs
            else
              match delete_photo_m base fs path with
              | .ok fs' => fs'
              | .error _ => fs
          else fs
        .ok ⟨fs1.files.filter (fun q => decide (q ≠ full)), fs1.dirs⟩
      else .error .notAFile
    else .error .notFound

/-- **C7**: deleting an existing `.md` document always succeeds — any
failure of the attachment deletion (an injected failure, or the
attachment being absent) is swallowed and never propagated — the
document itself is gone afterwards, and when the photo deletion is not
made to fail, `photo_exists` is false afterwards (whether or not an
attachment existed). -/
theorem claim_C7_delete_best_effort (base : List String) (fs : FS) (path : String)
    (inject : Bool) (full : List String)
    (hv : validate_path base path = some full)
    (hf : full ∈ fs.files)
    (hmd : endsWithStr path ".md" = true) :
    ∃ fs' : FS, delete_file_m base fs path inject = .ok fs' ∧
      (inject = false → photo_exists_m base fs' path = false) ∧
      full ∉ fs'.files := by
  unfold delete_file_m
  rw [hv]
  dsimp only
  rw [if_pos (Or.inl hf), if_pos hf, if_pos hmd]
  set fs1 := if inject = true then fs
    else
      match delete_photo_m base fs path with
      | .ok fs' => fs'
      | .error _ => fs with hfs1
  refine ⟨⟨fs1.files.filter (fun q => decide (q ≠ full)), fs1.dirs⟩, rfl, ?_, ?_⟩
  · intro hinj
    have hpp : photoPathFor full ∉ fs1.files := by
      rw [hfs1, hinj]
      simp only [Bool.false_eq_true, if_false]
      unfold delete_photo_m
      rw [hv]
      dsimp only
      by_cases hmem : photoPathFor full ∈ fs.files
      · rw [if_pos hmem]
        intro hin
        have := (List.mem_filter.mp hin).2
        simp at this
      · rw [if_neg hmem]
        exact hmem
    unfold photo_exists_m
    rw [hv]
    simp only [decide_eq_false_iff_not]
    intro hin
    exact hpp (List.mem_filter.mp hin).1
  · intro hin
    have := (List.mem_filter.mp hin).2
    simp at this

/-- **C7** witness: deleting `a.md` (with its photo `a.jpeg` present, no
injected failure) at a concrete root. -/
theorem claim_C7_witness :
    ∃ fs' : FS,
      delete_file_m ["srv", "recipes"]
        ⟨[["srv", "recipes", "a.md"], ["srv", "recipes", "a.jpeg"]], []⟩ "a.md" false
        = .ok fs' ∧
      (false = false → photo_exists_m ["srv", "recipes"] fs' "a.md" = false) ∧
      ["srv", "recipes", "a.md"] ∉ fs'.files :=
  claim_C7_delete_best_effort ["srv", "recipes"]
    ⟨[["srv", "recipes", "a.md"], ["srv", "recipes", "a.jpeg"]], []⟩ "a.md" false
    ["srv", "recipes", "a.md"] (by decide) (by decide) (by decide)

/-! ## DirectoryIndex (`FileSystemManager.list_directory`, pure part)

One directory's raw entries (from `iterdir()`/`stat()`) are filtered
(photo files removed) and sorted by the key
`(type == "file", name)` — directories first, then name, Python's
stable ascending sort. -/

/-- `pathlib.PurePath.suffix` of a file name: the part from the last dot
on, provided that dot is neither the first nor the last character. -/
def pySuffix (name : List Char) : List Char :=
  let pre := name.reverse.takeWhile (fun c => c != '.')
  if pre.length = name.length then []
  else if name.length - pre.length - 1 = 0 then []
  else if pre.length = 0 then []
  else '.' :: pre.reverse

/-- A raw directory entry: name, kind, and size (files only). -/
structure RawEntry where
  name : String
  isDir : Bool
  size : Option Nat
deriving DecidableEq

/-- The filter of `list_directory`:
`item.is_file() and item.suffix.lower() == '.jpeg'` → skipped. -/
def isPhotoFile (e : RawEntry) : Bool :=
  !e.isDir && (lowerData (pySuffix e.name.data) == ".jpeg".data)

/-- The sort key comparison of `list_directory`:
`key=lambda x: (x["type"] == "file", x["name"])` — directories before
files, then code-point lexicographic on the name. -/
def listLe (a b : RawEntry) : Bool :=
  if a.isDir = b.isDir then lexLe a.name.data b.name.data else a.isDir

/-- The pure part of `FileSystemManager.list_directory` on one
directory's raw entries. -/
def list_directory_pure (entries : List RawEntry) : List RawEntry :=
  sortBy listLe (entries.filter (fun e => !isPhotoFile e))

theorem lexLe_total : ∀ x y : List Char, lexLe x y = false → lexLe y x = true := by
  intro x
  induction x with
  | nil => intro y h; simp [lexLe] at h
  | cons a as ih =>
    intro y h
    rcases y with _ | ⟨b, bs⟩
    · rfl
    · rw [lexLe] at h ⊢
      by_cases hab : a < b
      · simp [hab] at h
      · by_cases hba : b < a
        · simp [hba]
        · simp [hab, hba] at h ⊢
          exact ih bs h

theorem lexLe_trans : ∀ x y z : List Char,
    lexLe x y = true → lexLe y z = true → lexLe x z = true := by
  intro x
  induction x with
  | nil => intro y z _ _; rfl
  | cons a as ih =>
    intro y z h1 h2
    rcases y with _ | ⟨b, bs⟩
    · simp [lexLe] at h1
    · rcases z with _ | ⟨c, cs⟩
      · simp [lexLe] at h2
      · rw [lexLe] at h1 h2 ⊢
        by_cases hab : a < b
        · have hbc : b ≤ c := by
            by_cases h' : b < c
            · exact le_of_lt h'
            · by_cases h'' : c < b
              · simp [h', h''] at h2
              · exact le_of_not_lt h''
          have hac : a < c := lt_of_lt_of_le hab hbc
          simp [hac]
        · by_cases hba : b < a
          · simp [hab, hba] at h1
          · have heq : a = b := le_antisymm (le_of_not_lt hba) (le_of_not_lt hab)
            subst heq
            simp [hab] at h1 ⊢
            by_cases hac : a < c
            · simp [hac]
            · by_cases hca : c < a
              · simp [hac, hca] at h2
              · simp [hac, hca] at h2 ⊢
                exact ⟨le_of_not_lt hca, ih bs cs h1 h2⟩

theorem listLe_total : ∀ x y : RawEntry, listLe x y = false → listLe y x = true := by
  intro x y h
  unfold listLe at h ⊢
  by_cases hd : x.isDir = y.isDir
  · rw [if_pos hd] at h
    rw [if_pos hd.symm]
    exact lexLe_total _ _ h
  · rw [if_neg hd] at h
    rw [if_neg (fun h' => hd h'.symm)]
    cases hx : x.isDir <;> cases hy : y.isDir <;> simp_all

theorem listLe_trans : ∀ x y z : RawEntry,
    listLe x y = true → listLe y z = true → listLe x z = true := by
  intro x y z h1 h2
  unfold listLe at h1 h2 ⊢
  cases hx : x.isDir <;> cases hy : y.isDir <;> cases hz : z.isDir <;>
    simp_all <;> exact lexLe_trans _ _ _ h1 h2

/-- **C8**: `list_directory` output contains no photo (`.jpeg`) file, is
sorted directories-first and then lexicographically by name, and every
non-photo input entry does appear in the output. -/
theorem claim_C8_listing (entries : List RawEntry) :
    (∀ e ∈ list_directory_pure entries, isPhotoFile e = false)
    ∧ (list_directory_pure entries).Pairwise (fun a b => listLe a b = true)
    ∧ (∀ e ∈ entries, isPhotoFile e = false → e ∈ list_directory_pure entries) := by
  refine ⟨?_, ?_, ?_⟩
  · intro e he
    have hm := (mem_sortBy _ _ _).mp he
    have := (List.mem_filter.mp hm).2
    simpa using this
  · exact pairwise_sortBy listLe listLe_total listLe_trans _
  · intro e he hph
    exact (mem_sortBy _ _ _).mpr
      (List.mem_filter.mpr ⟨he, by simp [hph]⟩)

/-- **C8** witness: concrete directory with a photo `c.jpeg`, a document
`b.md` and a subdirectory `a`; the document is in the listing. -/
theorem claim_C8_witness :
    (⟨"b.md", false, some 7⟩ : RawEntry) ∈ list_directory_pure
      [⟨"b.md", false, some 7⟩, ⟨"a", true, none⟩, ⟨"c.jpeg", false, some 9⟩] :=
  (claim_C8_listing
    [⟨"b.md", false, some 7⟩, ⟨"a", true, none⟩, ⟨"c.jpeg", false, some 9⟩]).2.2
    ⟨"b.md", false, some 7⟩ (by decide) (by decide)

/-! ## TranslationCache (`translation.get_cached_translation` /
`translation.cache_translation`)

The module-level dict `translation_cache` is modelled as an association
list; the float modification times, which are only ever compared with
`>=`, are modelled as rationals. -/

/-- `translation.CachedTranslation`. -/
structure CachedTranslation where
  translated_content : String
  html_content : String
  file_mtime : Rat
deriving DecidableEq

/-- `translation.get_cached_translation`: a hit requires an entry for the
path whose stored modification time is `>=` the current one. -/
def get_cached_translation (cache : List (String × CachedTranslation))
    (file_path : String) (file_mtime : Rat) : Option CachedTranslation :=
  match lookupA file_path cache with
  | some cached => if cached.file_mtime ≥ file_mtime then some cached else none
  | none => none

/-- `translation.cache_translation`: unconditional overwrite of the
path's entry. -/
def cache_translation (cache : List (String × CachedTranslation))
    (file_path : String) (translated_content html_content : String)
    (file_mtime : Rat) : List (String × CachedTranslation) :=
  (file_path, ⟨translated_content, html_content, file_mtime⟩)
    :: cache.filter (fun q => decide (q.1 ≠ file_path))

/-- **C9**: `get` returns an entry iff one is stored for the path with
stored modification time ≥ the requested one (otherwise absent), and
`put` overwrites the path's entry unconditionally while leaving other
paths untouched. -/
theorem claim_C9_translation_cache (cache : List (String × CachedTranslation))
    (p : String) (t : Rat) :
    (∀ e, get_cached_translation cache p t = some e ↔
        (lookupA p cache = some e ∧ t ≤ e.file_mtime))
    ∧ (∀ tr h m, lookupA p (cache_translation cache p tr h m)
        = some ⟨tr, h, m⟩)
    ∧ (∀ q tr h m, q ≠ p →
        lookupA q (cache_translation cache p tr h m) = lookupA q cache) := by
  refine ⟨?_, ?_, ?_⟩
  · intro e
    unfold get_cached_translation
    rcases hl : lookupA p cache with _ | c
    · simp
    · by_cases hm : c.file_mtime ≥ t
      · simp [hm]
        intro he
        subst he
        exact hm
      · simp [hm]
        intro he
        subst he
        exact lt_of_not_ge hm
  · intro tr h m
    simp [cache_translation, lookupA]
  · intro q tr h m hq
    unfold cache_translation
    rw [lookupA]
    rw [if_neg (fun h' => hq h'.symm)]
    induction cache with
    | nil => rfl
    | cons x xs ih =>
      by_cases hxp : x.1 = p
      · rw [List.filter_cons_of_neg (by simp [hxp])]
        rw [show lookupA q (x :: xs) = lookupA q xs from by
          rw [lookupA, if_neg (fun h' => hq (h'.symm.trans hxp))]]
        exact ih
      · rw [List.filter_cons_of_pos (by simp [hxp])]
        rw [lookupA]
        by_cases hxq : x.1 = q
        · rw [if_pos hxq,
            show lookupA q (x :: xs) = some x.2 from by rw [lookupA, if_pos hxq]]
        · rw [if_neg hxq,
            show lookupA q (x :: xs) = lookupA q xs from by rw [lookupA, if_neg hxq]]
          exact ih

/-- **C9** witness: a concrete cache where the stored stamp 5 is older
than the requested 7 (so `get` misses, per the iff), and an overwrite is
observed. -/
theorem claim_C9_witness :
    (get_cached_translation [("a.md", (⟨"tr", "html", 5⟩ : CachedTranslation))] "a.md" 7
        = some (⟨"tr", "html", 5⟩ : CachedTranslation) ↔
      (lookupA "a.md" [("a.md", (⟨"tr", "html", 5⟩ : CachedTranslation))]
          = some (⟨"tr", "html", 5⟩ : CachedTranslation) ∧
        (7 : Rat) ≤ ((5 : Rat))))
    ∧ lookupA "a.md"
        (cache_translation [("a.md", (⟨"tr", "html", 5⟩ : CachedTranslation))]
          "a.md" "tr2" "html2" 9)
        = some (⟨"tr2", "html2", 9⟩ : CachedTranslation) :=
  ⟨(claim_C9_translation_cache [("a.md", ⟨"tr", "html", 5⟩)] "a.md" 7).1 ⟨"tr", "html", 5⟩,
   (claim_C9_translation_cache [("a.md", ⟨"tr", "html", 5⟩)] "a.md" 7).2.1 "tr2" "html2" 9⟩

/-! ## Recursive listing over a directory tree
(`list_directory` + `routes._get_all_files_recursive`)

The sandboxed tree under the base directory is modelled as a tree of
nodes; `_get_all_files_recursive` walks the subtree found at a path,
re-listing each directory (sorted, photo files filtered) and recursing
into subdirectories; unreadable targets (a missing path, or a path that
names a file, where `iterdir` raises and `list_directory` turns it into
an exception swallowed by the caller) contribute no entries. -/

/-- A filesystem node: a regular file (with its size) or a directory
with named children. -/
inductive FSNode where
  | file (size : Nat)
  | dir (entries : List (String × FSNode))

/-- Walk a component path down from a node. -/
def lookupNode : List String → FSNode → Option FSNode
  | [], n => some n
  | _ :: _, .file _ => none
  | c :: rest, .dir es =>
    match lookupA c es with
    | none => none
    | some child => lookupNode rest child

def nodeIsDir : FSNode → Bool
  | .file _ => false
  | .dir _ => true

def nodeSize : FSNode → Option Nat
  | .file s => some s
  | .dir _ => none

/-- The directory-entry view of a child, as `list_directory` builds it. -/
def entryToRaw (e : String × FSNode) : RawEntry :=
  ⟨e.1, nodeIsDir e.2, nodeSize e.2⟩

/-- `FileSystemManager.list_directory` over the tree: `[]` if the path
does not exist, an error (the `except`-wrapped 500) if it names a file,
otherwise the filtered and sorted entries. -/
def list_directory_fs (root : FSNode) (path : List String) :
    Except Unit (List RawEntry) :=
  match lookupNode path root with
  | none => .ok []
  | some (.file _) => .error ()
  | some (.dir es) => .ok (list_directory_pure (es.map entryToRaw))

/-- The filter of `list_directory`, on a named child. -/
def childKeep (e : String × FSNode) : Bool := !(isPhotoFile (entryToRaw e))

/-- The sort key of `list_directory`, on named children. -/
def childLe (a b : String × FSNode) : Bool := listLe (entryToRaw a) (entryToRaw b)

/-- `subpath = f"{path}/{name}" if path else name`. -/
def subPath (path name : String) : String :=
  if path = "" then name else path ++ "/" ++ name

/-- The walk of `routes._get_all_files_recursive` from a node: list the
directory (filtered of photos, sorted as `list_directory` does), collect
files as `(name, path)` pairs, recurse into subdirectories.  At a file
node the listing raises and the exception is swallowed, contributing
nothing.  (The source re-lists by path at each level; with unique child
names that is the same as walking the child node directly.) -/
def getAllFilesFromNode : FSNode → String → List (String × String)
  | .file _, _ => []
  | .dir es, path =>
    (sortBy childLe (es.filter childKeep)).attach.flatMap
      (fun x =>
        match x with
        | ⟨(n, .file _), _⟩ => [(n, subPath path n)]
        | ⟨(n, .dir es2), _⟩ => getAllFilesFromNode (.dir es2) (subPath path n))
termination_by n _ => sizeOf n
decreasing_by
  simp_wf
  rename_i hmem
  have h1 : (n, FSNode.dir es2) ∈ es.filter childKeep :=
    (mem_sortBy childLe _ _).mp hmem
  have h2 : (n, FSNode.dir es2) ∈ es := (List.mem_filter.mp h1).1
  have h3 := List.sizeOf_lt_of_mem h2
  simp at h3
  omega

/-- `routes._get_all_files_recursive(path)`: resolve the starting path;
a missing path lists as `[]`, a file path fails and is swallowed; from
a directory, walk the subtree.  `pathStr` is the string form of the
starting path used to build result paths. -/
def get_all_files_recursive (root : FSNode) (path : List String)
    (pathStr : String) : List (String × String) :=
  match lookupNode path root with
  | none => []
  | some n => getAllFilesFromNode n pathStr

/-- Attach contents to a corpus listing (the searches read each file
through `read_file`; `read` is the content of the file at a given
path). -/
def corpusOf (l : List (String × String)) (read : String → String) : List FileInfo :=
  l.map (fun e => ⟨e.1, e.2, read e.2⟩)

/-- **C10**: at a path where nothing exists, `list_directory` returns the
empty list rather than a NotFound failure; consequently the recursive
corpus of a missing — or empty — tree is empty and both search
operations return zero results. -/
theorem claim_C10_empty_results (root : FSNode) (path : List String)
    (pathStr : String) (q : String) (lim : Nat) (read : String → String)
    (h : lookupNode path root = none ∨ lookupNode path root = some (.dir [])) :
    list_directory_fs root path = .ok []
    ∧ get_all_files_recursive root path pathStr = []
    ∧ searchFileContents q lim
        (corpusOf (get_all_files_recursive root path pathStr) read) = []
    ∧ searchFilenames q lim
        (corpusOf (get_all_files_recursive root path pathStr) read) = [] := by
  have hdirnil : ∀ p', getAllFilesFromNode (.dir []) p' = [] := by
    intro p'
    rw [getAllFilesFromNode.eq_def]
    rfl
  have hg : get_all_files_recursive root path pathStr = [] := by
    rcases h with h | h
    · unfold get_all_files_recursive
      rw [h]
    · unfold get_all_files_recursive
      rw [h]
      exact hdirnil pathStr
  have hld : list_directory_fs root path = .ok [] := by
    rcases h with h | h
    · unfold list_directory_fs
      rw [h]
    · unfold list_directory_fs
      rw [h]
      rfl
  refine ⟨hld, hg, ?_, ?_⟩
  · rw [hg]
    simp [searchFileContents, corpusOf, sortBy]
  · rw [hg]
    simp [searchFilenames, corpusOf, sortBy]

/-- **C10** witness: a concrete one-file tree queried at a missing
path. -/
theorem claim_C10_witness :
    list_directory_fs (.dir [("a.md", .file 3)]) ["b"] = .ok []
    ∧ get_all_files_recursive (.dir [("a.md", .file 3)]) ["b"] "b" = []
    ∧ searchFileContents "aa" 10
        (corpusOf (get_all_files_recursive (.dir [("a.md", .file 3)]) ["b"] "b")
          (fun _ => "")) = []
    ∧ searchFilenames "aa" 10
        (corpusOf (get_all_files_recursive (.dir [("a.md", .file 3)]) ["b"] "b")
          (fun _ => "")) = [] :=
  claim_C10_empty_results (.dir [("a.md", .file 3)]) ["b"] "b" "aa" 10 (fun _ => "")
    (Or.inl rfl)
